import Mathlib

/-!
Verification of the claim-collection and payload-assembly pipeline of the
rusty_paseto TokenBuilder (src/builders.rs).

Rust strings are modelled as lists of characters.  The external serde_json
serializer, the Rust standard library trim functions and the PasetoClaim
contract (whose implementing types live outside the provided sources) are
modelled explicitly below; the builder itself is translated line by line
from src/builders.rs.
-/

/-- Rust String and str values are modelled as lists of characters. -/
abbrev Str := List Char

mutual
/-- Modelled from the spec: the JSON values a claim value can serialize to
(section 3 of the spec: scalar, string, array or object).  Numbers are kept
as their exact serialized character sequence so that bit-for-bit
preservation of numeric output can be stated. -/
inductive Json where
  | null : Json
  | bool (b : Bool) : Json
  | num (s : Str) : Json
  | str (s : Str) : Json
  | arr (elems : JsonList) : Json
  | obj (mems : JsonMembers) : Json

/-- List of JSON array elements. -/
inductive JsonList where
  | nil : JsonList
  | cons (hd : Json) (tl : JsonList) : JsonList

/-- List of JSON object members, in serialization order. -/
inductive JsonMembers where
  | nil : JsonMembers
  | cons (key : Str) (val : Json) (tl : JsonMembers) : JsonMembers
end

/-- Key and value pairs of a JSON object, in order. -/
def JsonMembers.toList : JsonMembers → List (Str × Json)
  | .nil => []
  | .cons k v tl => (k, v) :: tl.toList

/-- Tests whether a JSON value is an object. -/
def Json.isObj : Json → Bool
  | .obj _ => true
  | _ => false

/-- Characters that may appear in a serialized JSON number. -/
def isNumberChar (c : Char) : Bool :=
  c.isDigit || c == '-' || c == '+' || c == '.' || c == 'e' || c == 'E'

/-- Characters that may start a serialized JSON number. -/
def isNumberStart (c : Char) : Bool := c.isDigit || c == '-'

/-- Nonempty all-digit string. -/
def allDigits1 (s : Str) : Bool := !s.isEmpty && s.all Char.isDigit

/-- Optional exponent part of the JSON number grammar. -/
def checkExpPart : Str → Bool
  | [] => true
  | c :: r =>
    if c == 'e' || c == 'E' then
      match r with
      | [] => false
      | d :: r2 => if d == '+' || d == '-' then allDigits1 r2 else allDigits1 (d :: r2)
    else false

/-- Optional fraction part of the JSON number grammar, then exponent. -/
def checkFracPart : Str → Bool
  | [] => true
  | c :: r =>
    if c == '.' then
      !(r.takeWhile Char.isDigit).isEmpty && checkExpPart (r.dropWhile Char.isDigit)
    else checkExpPart (c :: r)

/-- Integer part of the JSON number grammar, then fraction and exponent. -/
def checkIntPart : Str → Bool
  | [] => false
  | c :: r =>
    if c == '0' then checkFracPart r
    else if c.isDigit then checkFracPart (r.dropWhile Char.isDigit)
    else false

/-- Full JSON number grammar over a complete string. -/
def validNumberString : Str → Bool
  | [] => false
  | c :: r => if c == '-' then checkIntPart r else checkIntPart (c :: r)

/-- Well-formed serialized number: made of number characters and matching
the JSON number grammar.  This is what the serde serializer emits for a
numeric value. -/
def numberWF (s : Str) : Bool := s.all isNumberChar && validNumberString s

mutual
/-- Well-formedness of a modelled JSON value: every number in it is a
well-formed serialized number. -/
def Json.wf : Json → Bool
  | .null => true
  | .bool _ => true
  | .num s => numberWF s
  | .str _ => true
  | .arr l => l.wfAll
  | .obj m => m.wfAll

/-- Well-formedness of every element of a JSON array. -/
def JsonList.wfAll : JsonList → Bool
  | .nil => true
  | .cons v tl => v.wf && tl.wfAll

/-- Well-formedness of every value of a JSON object. -/
def JsonMembers.wfAll : JsonMembers → Bool
  | .nil => true
  | .cons _ v tl => v.wf && tl.wfAll
end

/-- Hexadecimal digit character for a value below 16, lowercase, as emitted
by serde_json for control-character escapes. -/
def hexLowerChar (n : Nat) : Char :=
  if n < 10 then Char.ofNat (48 + n) else Char.ofNat (87 + n)

/-- Modelled from serde_json: escaping of one character inside a JSON
string literal.  Quote and backslash are escaped, the common control
characters get their short escapes, the remaining control characters get a
unicode escape, and every other character is emitted unchanged. -/
def escapeChar (c : Char) : Str :=
  if c = '"' then ['\\', '"']
  else if c = '\\' then ['\\', '\\']
  else if c.toNat = 8 then ['\\', 'b']
  else if c.toNat = 9 then ['\\', 't']
  else if c.toNat = 10 then ['\\', 'n']
  else if c.toNat = 12 then ['\\', 'f']
  else if c.toNat = 13 then ['\\', 'r']
  else if c.toNat < 32 then
    ['\\', 'u', '0', '0', hexLowerChar (c.toNat / 16), hexLowerChar (c.toNat % 16)]
  else [c]

/-- Escaping of a whole string body. -/
def escapeStr : Str → Str
  | [] => []
  | c :: s => escapeChar c ++ escapeStr s

/-- Modelled from serde_json: compact rendering of a JSON string literal. -/
def renderString (s : Str) : Str := '"' :: (escapeStr s ++ ['"'])

/-- Literal rendering of the JSON null value. -/
def litNull : Str := ['n', 'u', 'l', 'l']

/-- Literal rendering of the JSON true value. -/
def litTrue : Str := ['t', 'r', 'u', 'e']

/-- Literal rendering of the JSON false value. -/
def litFalse : Str := ['f', 'a', 'l', 's', 'e']

mutual
/-- Modelled from serde_json: compact rendering of a JSON value, exactly as
serde_json::to_string produces it (no whitespace). -/
def renderJson : Json → Str
  | .null => litNull
  | .bool true => litTrue
  | .bool false => litFalse
  | .num s => s
  | .str s => renderString s
  | .arr l => '[' :: (renderElements l ++ [']'])
  | .obj m => '{' :: (renderMembers m ++ ['}'])

/-- Compact rendering of the elements of a JSON array, comma separated. -/
def renderElements : JsonList → Str
  | .nil => []
  | .cons v tl =>
    renderJson v ++
      (match tl with
       | .nil => []
       | t => ',' :: renderElements t)

/-- Compact rendering of the members of a JSON object, comma separated. -/
def renderMembers : JsonMembers → Str
  | .nil => []
  | .cons k v tl =>
    renderString k ++ ':' :: renderJson v ++
      (match tl with
       | .nil => []
       | t => ',' :: renderMembers t)
end

/-- Modelled from the Rust standard library: str::trim_start_matches with a
character pattern removes every leading occurrence of that character. -/
def trimStartMatches (c : Char) (s : Str) : Str := s.dropWhile (fun x => x == c)

/-- Modelled from the Rust standard library: str::trim_end_matches with a
character pattern removes every trailing occurrence of that character. -/
def trimEndMatches (c : Char) (s : Str) : Str :=
  (s.reverse.dropWhile (fun x => x == c)).reverse

/-- Modelled from the spec: a claim as stored in the type-erased registry.
The key is what get_key returns; the value is the JSON value the claim
serializes to, or the error produced when its serializer fails (section 6
of the spec; the PasetoClaim implementing types are not under src). -/
structure Claim where
  key : Str
  value : Except Str Json

/-- JSON value of a claim whose serializer succeeds. -/
def Claim.jsonValue (c : Claim) : Json :=
  match c.value with
  | .ok v => v
  | .error _ => .null

/-- Claim whose serializer succeeds and yields a well-formed value that is
not itself a JSON object. -/
def goodFlat (c : Claim) : Bool :=
  match c.value with
  | .ok v => v.wf && !v.isObj
  | .error _ => false

/-- Modelled from the spec and serde_json: serializing one registered claim
with serde_json::to_string (builders.rs line 53).  Per the PasetoClaim
contract a claim serializes as a standalone JSON object with exactly one
top-level key, namely its own key paired with its value. -/
def serializeClaim (c : Claim) : Except Str Str :=
  c.value.map (fun v => renderJson (.obj (.cons c.key v .nil)))

/-- Fragment the build loop computes from one claim: the serialized claim
with every leading left brace and every trailing right brace removed
(builders.rs line 54). -/
def trimmedFragment (c : Claim) : Except Str Str :=
  (serializeClaim c).map (fun raw => trimEndMatches '}' (trimStartMatches '{' raw))

/-- The claim registry of the builder: the contents of the
HashMap<String, Box<dyn erased_serde::Serialize>> field, as a list of key
and claim pairs in iteration order (HashMap iteration order is not
specified by Rust, so theorems about unordered behavior quantify over
permutations of this list). -/
abbrev Registry := List (Str × Claim)

/-- Keys of a registry. -/
def keysOf (l : Registry) : List Str := l.map Prod.fst

/-- Modelled from the Rust standard library: HashMap::insert keyed by the
claim key; replaces the stored claim when the key is present, otherwise
adds a new entry. -/
def insertEntry : Registry → Claim → Registry
  | [], c => [(c.key, c)]
  | (k, old) :: tl, c =>
    if k = c.key then (k, c) :: tl else (k, old) :: insertEntry tl c

/-- Modelled from the Rust standard library: HashMap get by key. -/
def lookupClaim : Registry → Str → Option Claim
  | [], _ => none
  | (k, c) :: tl, q => if k = q then some c else lookupClaim tl q

/-- The TokenBuilder state: the claims registry and the optional footer
(builders.rs lines 11 to 16; the version and purpose parameters are
phantom types carrying no data and are omitted). -/
structure TokenBuilder where
  claims : Registry
  footer : Option Str

/-- TokenBuilder::new (builders.rs lines 19 to 26). -/
def TokenBuilder.new : TokenBuilder := ⟨[], none⟩

/-- TokenBuilder::set_claim (builders.rs lines 28 to 31): inserts the claim
under its own key, replacing any previous claim with that key. -/
def setClaim (b : TokenBuilder) (c : Claim) : TokenBuilder :=
  { b with claims := insertEntry b.claims c }

/-- TokenBuilder::set_footer (builders.rs lines 33 to 36). -/
def setFooter (b : TokenBuilder) (f : Option Str) : TokenBuilder :=
  { b with footer := f }

/-- Builder obtained by registering a list of claims in order on a fresh
builder. -/
def registerAll (cs : List Claim) : TokenBuilder :=
  cs.foldl setClaim TokenBuilder.new

/-- The for loop of build (builders.rs lines 52 to 56): serialize each
claim, trim the outer braces, and append the fragment and a comma to the
accumulated payload; a serialization failure aborts the loop through the
question mark operator. -/
def assembleLoop : Registry → Str → Except Str Str
  | [], payload => .ok payload
  | (_, c) :: rest, payload =>
    match trimmedFragment c with
    | .error e => .error e
    | .ok trimmed => assembleLoop rest (payload ++ trimmed ++ [','])

/-- Payload assembly of build (builders.rs lines 48 to 61): start from a
left brace, run the loop over the drained registry, remove the trailing
commas and close with a right brace. -/
def buildPayload (claims : Registry) : Except Str Str :=
  match assembleLoop claims ['{'] with
  | .error e => .error e
  | .ok p => .ok (trimEndMatches ',' p ++ ['}'])

/-- Modelled from the spec: the external TokenCodec boundary (section 6).
Encoding produces the token string from payload, footer and key; decoding
inverts it, recovering the payload exactly. -/
structure TokenCodec where
  encode : Str → Option Str → Str → Str
  decode : Str → Option Str → Str → Except Str Str
  decode_encode : ∀ p f k, decode (encode p f k) f k = Except.ok p

/-- Trivial codec instance used to instantiate theorems at a concrete
codec. -/
def idCodec : TokenCodec :=
  ⟨fun p _ _ => p, fun t _ _ => .ok t, fun _ _ _ => rfl⟩

/-- TokenBuilder::build (builders.rs lines 46 to 64): the registry is taken
out of the builder first (mem::take on line 50, leaving it empty), the
payload is assembled, and on success the payload, the footer and the key
are handed to the external codec.  The returned pair is the build result
together with the builder state after the call (build takes mut self by
reference). -/
def build (b : TokenBuilder) (codec : TokenCodec) (key : Str) :
    Except Str Str × TokenBuilder :=
  let claims := b.claims
  let drained : TokenBuilder := { b with claims := [] }
  match buildPayload claims with
  | .error e => (.error e, drained)
  | .ok payload => (.ok (codec.encode payload drained.footer key), drained)

/-- Single member string of the payload: rendered key, colon, rendered
value. -/
def memberStr (c : Claim) : Str :=
  renderString c.key ++ ':' :: renderJson c.jsonValue

/-- Concatenation of member strings each followed by a comma, as the build
loop accumulates them. -/
def entriesStr : Registry → Str
  | [] => []
  | e :: tl => memberStr e.2 ++ ',' :: entriesStr tl

/-- JSON object members corresponding to the registry entries in order. -/
def entriesMembers : Registry → JsonMembers
  | [] => .nil
  | e :: tl => .cons e.2.key e.2.jsonValue (entriesMembers tl)

/-- Simple one-character JSON string escapes. -/
def isSimpleEscape (e : Char) : Bool :=
  e == '"' || e == '\\' || e == '/' || e == 'b' || e == 'f' ||
    e == 'n' || e == 'r' || e == 't'

/-- Hexadecimal digit character test. -/
def isHexDigitCh (c : Char) : Bool :=
  c.isDigit || ('a' ≤ c && c ≤ 'f') || ('A' ≤ c && c ≤ 'F')

/-- JSON string body checker: consumes the remainder of a string literal
after its opening quote, returning what follows the closing quote. -/
def skipStringRest : Str → Option Str
  | [] => none
  | c :: r =>
    if c == '"' then some r
    else if c == '\\' then
      match r with
      | [] => none
      | e :: r2 =>
        if e == 'u' then
          match r2 with
          | h1 :: h2 :: h3 :: h4 :: r3 =>
            if isHexDigitCh h1 && isHexDigitCh h2 && isHexDigitCh h3 && isHexDigitCh h4 then
              skipStringRest r3
            else none
          | _ => none
        else if isSimpleEscape e then skipStringRest r2
        else none
    else if 32 ≤ c.toNat then skipStringRest r
    else none

/-- Matches an expected literal character sequence at the front of the
input. -/
def expectChars : Str → Str → Option Str
  | [], s => some s
  | _ :: _, [] => none
  | p :: ps, c :: cs => if c == p then expectChars ps cs else none

mutual
/-- JSON value checker over compact (whitespace-free) JSON, with fuel:
consumes one JSON value and returns the rest of the input. -/
def skipValue : Nat → Str → Option Str
  | 0, _ => none
  | fuel + 1, s =>
    match s with
    | [] => none
    | c :: r =>
      if c == '"' then skipStringRest r
      else if c == '{' then
        match r with
        | [] => none
        | c2 :: r2 => if c2 == '}' then some r2 else skipMembers fuel (c2 :: r2)
      else if c == '[' then
        match r with
        | [] => none
        | c2 :: r2 => if c2 == ']' then some r2 else skipElements fuel (c2 :: r2)
      else if c == 't' then expectChars ['r', 'u', 'e'] r
      else if c == 'f' then expectChars ['a', 'l', 's', 'e'] r
      else if c == 'n' then expectChars ['u', 'l', 'l'] r
      else if isNumberStart c then
        if validNumberString ((c :: r).takeWhile isNumberChar) then
          some ((c :: r).dropWhile isNumberChar)
        else none
      else none

/-- JSON object member checker: consumes one or more comma-separated
members and the closing right brace. -/
def skipMembers : Nat → Str → Option Str
  | 0, _ => none
  | fuel + 1, s =>
    match s with
    | [] => none
    | c :: r =>
      if c == '"' then
        match skipStringRest r with
        | none => none
        | some r2 =>
          match r2 with
          | [] => none
          | c2 :: r3 =>
            if c2 == ':' then
              match skipValue fuel r3 with
              | none => none
              | some r4 =>
                match r4 with
                | [] => none
                | c3 :: r5 =>
                  if c3 == ',' then skipMembers fuel r5
                  else if c3 == '}' then some r5
                  else none
            else none
      else none

/-- JSON array element checker: consumes one or more comma-separated
elements and the closing right bracket. -/
def skipElements : Nat → Str → Option Str
  | 0, _ => none
  | fuel + 1, s =>
    match skipValue fuel s with
    | none => none
    | some r =>
      match r with
      | [] => none
      | c :: r2 =>
        if c == ',' then skipElements fuel r2
        else if c == ']' then some r2
        else none
end

/-- Syntactic validity of a complete compact JSON document: the value
checker consumes the whole input.  The fuel bound of one more than the
length is enough because the checker consumes at least one character per
recursion level. -/
def isValidJson (s : Str) : Bool :=
  match skipValue (s.length + 1) s with
  | some [] => true
  | _ => false

/-- Input whose head cannot continue a JSON number. -/
def noNumHead : Str → Bool
  | [] => true
  | c :: _ => !isNumberChar c

/-- Concrete claim with key a and numeric value 1, used to instantiate
theorems. -/
def claimA : Claim := ⟨['a'], .ok (.num ['1'])⟩

/-- Concrete claim with key b and numeric value 2. -/
def claimB : Claim := ⟨['b'], .ok (.num ['2'])⟩

/-- Concrete claim with key k and an override value 9 under the same key as
claimK1. -/
def claimK1 : Claim := ⟨['k'], .ok (.num ['1'])⟩

/-- Concrete claim sharing the key of claimK1 with a different value. -/
def claimK2 : Claim := ⟨['k'], .ok (.num ['2'])⟩

/-- Concrete claim whose value is a nested JSON object. -/
def claimNested : Claim := ⟨['a'], .ok (.obj (.cons ['b'] (.num ['1']) .nil))⟩

/-- Concrete claim whose serializer fails. -/
def claimFailing : Claim := ⟨['x'], .error ['m']⟩

/-- Concrete claim whose value is an array holding a nested object. -/
def claimArr : Claim :=
  ⟨['k'], .ok (.arr (.cons (.obj (.cons ['x'] (.num ['7']) .nil)) .nil))⟩

/-! Basic facts about the trim functions. -/

theorem trimEndMatches_concat_same (c : Char) (A : Str) :
    trimEndMatches c (A ++ [c]) = trimEndMatches c A := by
  simp [trimEndMatches, List.dropWhile]

theorem trimEndMatches_concat_ne {c y : Char} (h : (y == c) = false) (A : Str) :
    trimEndMatches c (A ++ [y]) = A ++ [y] := by
  simp [trimEndMatches, List.dropWhile, h]

theorem trimStartMatches_cons_ne {c x : Char} (h : (x == c) = false) (s : Str) :
    trimStartMatches c (x :: s) = x :: s := by
  simp [trimStartMatches, List.dropWhile, h]

/-! Existence of a last character. -/

theorem exists_last : ∀ (s : Str), s ≠ [] → ∃ ys y, s = ys ++ [y] := by
  intro s
  induction s with
  | nil => intro h; exact absurd rfl h
  | cons a t ih =>
    intro _
    match t, ih with
    | [], _ => exact ⟨[], a, rfl⟩
    | b :: t2, ih =>
      obtain ⟨ys, y, hy⟩ := ih (by simp)
      exact ⟨a :: ys, y, by simp [hy]⟩

/-! Shape of rendered JSON values. -/

theorem isHexDigitCh_hexLowerChar (n : Nat) (h : n < 16) :
    isHexDigitCh (hexLowerChar n) = true := by
  interval_cases n <;> decide

theorem skipStringRest_quote (r : Str) : skipStringRest ('"' :: r) = some r := by
  rw [skipStringRest.eq_def]; simp

theorem isSimpleEscape_ne_u {e : Char} (h : isSimpleEscape e = true) : (e == 'u') = false := by
  by_cases he : e = 'u'
  · subst he; simp [isSimpleEscape] at h
  · simp [he]

theorem skipStringRest_simple {e : Char} (h : isSimpleEscape e = true) (r : Str) :
    skipStringRest ('\\' :: e :: r) = skipStringRest r := by
  rw [skipStringRest.eq_def]
  simp [isSimpleEscape_ne_u h, h]

theorem skipStringRest_unicode {h1 h2 h3 h4 : Char}
    (e1 : isHexDigitCh h1 = true) (e2 : isHexDigitCh h2 = true)
    (e3 : isHexDigitCh h3 = true) (e4 : isHexDigitCh h4 = true) (r : Str) :
    skipStringRest ('\\' :: 'u' :: h1 :: h2 :: h3 :: h4 :: r) = skipStringRest r := by
  rw [skipStringRest.eq_def]
  simp [e1, e2, e3, e4]

theorem skipStringRest_plain {c : Char} (h32 : 32 ≤ c.toNat)
    (hq : (c == '"') = false) (hb : (c == '\\') = false) (r : Str) :
    skipStringRest (c :: r) = skipStringRest r := by
  rw [skipStringRest.eq_def]
  simp [hq, hb, h32]

theorem skipStringRest_escape (s : Str) :
    ∀ rest, skipStringRest (escapeStr s ++ '"' :: rest) = some rest := by
  induction s with
  | nil => intro rest; simpa [escapeStr] using skipStringRest_quote rest
  | cons c s ih =>
    intro rest
    show skipStringRest ((escapeChar c ++ escapeStr s) ++ '"' :: rest) = some rest
    by_cases hq : c = '"'
    · have he : escapeChar c = ['\\', '"'] := by simp [escapeChar, hq]
      rw [he]
      simp only [List.cons_append, List.nil_append]
      rw [skipStringRest_simple (by decide)]
      exact ih rest
    by_cases hb : c = '\\'
    · have he : escapeChar c = ['\\', '\\'] := by simp [escapeChar, hq, hb]
      rw [he]
      simp only [List.cons_append, List.nil_append]
      rw [skipStringRest_simple (by decide)]
      exact ih rest
    by_cases h3 : c.toNat = 8
    · have he : escapeChar c = ['\\', 'b'] := by simp [escapeChar, hq, hb, h3]
      rw [he]
      simp only [List.cons_append, List.nil_append]
      rw [skipStringRest_simple (by decide)]
      exact ih rest
    by_cases h4 : c.toNat = 9
    · have he : escapeChar c = ['\\', 't'] := by simp [escapeChar, hq, hb, h3, h4]
      rw [he]
      simp only [List.cons_append, List.nil_append]
      rw [skipStringRest_simple (by decide)]
      exact ih rest
    by_cases h5 : c.toNat = 10
    · have he : escapeChar c = ['\\', 'n'] := by simp [escapeChar, hq, hb, h3, h4, h5]
      rw [he]
      simp only [List.cons_append, List.nil_append]
      rw [skipStringRest_simple (by decide)]
      exact ih rest
    by_cases h6 : c.toNat = 12
    · have he : escapeChar c = ['\\', 'f'] := by simp [escapeChar, hq, hb, h3, h4, h5, h6]
      rw [he]
      simp only [List.cons_append, List.nil_append]
      rw [skipStringRest_simple (by decide)]
      exact ih rest
    by_cases h7 : c.toNat = 13
    · have he : escapeChar c = ['\\', 'r'] := by simp [escapeChar, hq, hb, h3, h4, h5, h6, h7]
      rw [he]
      simp only [List.cons_append, List.nil_append]
      rw [skipStringRest_simple (by decide)]
      exact ih rest
    by_cases h8 : c.toNat < 32
    · have he : escapeChar c =
          ['\\', 'u', '0', '0', hexLowerChar (c.toNat / 16), hexLowerChar (c.toNat % 16)] := by
        simp [escapeChar, hq, hb, h3, h4, h5, h6, h7, h8]
      have d1 : isHexDigitCh (hexLowerChar (c.toNat / 16)) = true :=
        isHexDigitCh_hexLowerChar _ (by omega)
      have d2 : isHexDigitCh (hexLowerChar (c.toNat % 16)) = true :=
        isHexDigitCh_hexLowerChar _ (Nat.mod_lt _ (by omega))
      rw [he]
      simp only [List.cons_append, List.nil_append]
      rw [skipStringRest_unicode (by decide) (by decide) d1 d2]
      exact ih rest
    · have he : escapeChar c = [c] := by simp [escapeChar, hq, hb, h3, h4, h5, h6, h7, h8]
      rw [he]
      simp only [List.cons_append, List.nil_append]
      rw [skipStringRest_plain (Nat.le_of_not_lt h8) (by simp [hq]) (by simp [hb])]
      exact ih rest

theorem numChar_ne {c x : Char} (h : isNumberChar c = true) (hx : isNumberChar x = false) :
    (c == x) = false := by
  by_cases he : c = x
  · subst he; rw [h] at hx; cases hx
  · simp [he]

theorem validNumberString_head {s : Str} (h : validNumberString s = true) :
    ∃ c r, s = c :: r ∧ isNumberStart c = true := by
  match s with
  | [] => simp [validNumberString] at h
  | c :: r =>
    refine ⟨c, r, rfl, ?_⟩
    by_cases hc : c = '-'
    · simp [isNumberStart, hc]
    · rw [validNumberString] at h
      simp only [beq_eq_false_iff_ne, ne_eq, hc, not_false_eq_true, if_neg,
        beq_iff_eq] at h
      rw [checkIntPart] at h
      by_cases h0 : c = '0'
      · simp [isNumberStart, h0]
      · simp only [beq_iff_eq, h0, if_false] at h
        by_cases hd : c.isDigit
        · simp [isNumberStart, hd]
        · simp [hd] at h

theorem renderMembers_single (k : Str) (v : Json) :
    renderMembers (.cons k v .nil) = renderString k ++ ':' :: renderJson v := by
  simp [renderMembers]

theorem renderMembers_cons₂ (k : Str) (v : Json) (k2 : Str) (v2 : Json) (tl : JsonMembers) :
    renderMembers (.cons k v (.cons k2 v2 tl)) =
      renderString k ++ ':' :: renderJson v ++ ',' :: renderMembers (.cons k2 v2 tl) := by
  simp only [renderMembers]

theorem renderElements_single (v : Json) :
    renderElements (.cons v .nil) = renderJson v := by
  simp [renderElements]

theorem renderElements_cons₂ (v v2 : Json) (tl : JsonList) :
    renderElements (.cons v (.cons v2 tl)) =
      renderJson v ++ ',' :: renderElements (.cons v2 tl) := by
  simp only [renderElements]

theorem render_head {v : Json} (h : v.wf = true) :
    ∃ c cs, renderJson v = c :: cs ∧ (c == ']') = false ∧ (c == '}') = false := by
  match v with
  | .null => exact ⟨'n', _, rfl, by decide, by decide⟩
  | .bool true => exact ⟨'t', _, rfl, by decide, by decide⟩
  | .bool false => exact ⟨'f', _, rfl, by decide, by decide⟩
  | .num s =>
    have h2 : validNumberString s = true := by
      simp [Json.wf, numberWF] at h; exact h.2
    obtain ⟨c, r, hs, hc⟩ := validNumberString_head h2
    have hnc : isNumberChar c = true := by
      simp only [isNumberStart, Bool.or_eq_true] at hc
      rcases hc with hd | hm
      · simp [isNumberChar, hd]
      · simp [isNumberChar, hm]
    exact ⟨c, r, by simp [renderJson, hs], numChar_ne hnc (by decide),
      numChar_ne hnc (by decide)⟩
  | .str s => exact ⟨'"', _, rfl, by decide, by decide⟩
  | .arr l => exact ⟨'[', _, rfl, by decide, by decide⟩
  | .obj m => exact ⟨'{', _, rfl, by decide, by decide⟩

theorem render_last {v : Json} (h : v.wf = true) (hno : v.isObj = false) :
    ∃ ys y, renderJson v = ys ++ [y] ∧ (y == '}') = false ∧ (y == ',') = false := by
  match v with
  | .null => exact ⟨['n', 'u', 'l'], 'l', rfl, by decide, by decide⟩
  | .bool true => exact ⟨['t', 'r', 'u'], 'e', rfl, by decide, by decide⟩
  | .bool false => exact ⟨['f', 'a', 'l', 's'], 'e', rfl, by decide, by decide⟩
  | .num s =>
    have h1 : s.all isNumberChar = true ∧ validNumberString s = true := by
      simpa [Json.wf, numberWF] using h
    have hne : s ≠ [] := by
      intro he; rw [he] at h1; simp [validNumberString] at h1
    obtain ⟨ys, y, hys⟩ := exists_last s hne
    have hy : isNumberChar y = true :=
      List.all_eq_true.mp h1.1 y (by simp [hys])
    exact ⟨ys, y, by simp [renderJson, hys], numChar_ne hy (by decide),
      numChar_ne hy (by decide)⟩
  | .str s =>
    exact ⟨'"' :: escapeStr s, '"', by simp [renderJson, renderString], by decide, by decide⟩
  | .arr l =>
    exact ⟨'[' :: renderElements l, ']', by simp [renderJson], by decide, by decide⟩
  | .obj m => simp [Json.isObj] at hno

theorem render_ne_nil {v : Json} (h : v.wf = true) : renderJson v ≠ [] := by
  obtain ⟨c, cs, hc, -, -⟩ := render_head h
  simp [hc]

theorem trimStartMatches_cons_same (c : Char) (s : Str) :
    trimStartMatches c (c :: s) = trimStartMatches c s := by
  simp [trimStartMatches, List.dropWhile]

/-! The fragment a good claim contributes to the payload. -/

theorem goodFlat_spec {c : Claim} (h : goodFlat c = true) :
    c.jsonValue.wf = true ∧ c.jsonValue.isObj = false := by
  match hv : c.value with
  | .error e => simp [goodFlat, hv] at h
  | .ok v =>
    simp only [goodFlat, hv, Bool.and_eq_true, Bool.not_eq_true'] at h
    simp only [Claim.jsonValue, hv]
    exact h

theorem trimmedFragment_good {c : Claim} (h : goodFlat c = true) :
    trimmedFragment c = .ok (memberStr c) := by
  match hv : c.value with
  | .error e => simp [goodFlat, hv] at h
  | .ok v =>
    have h2 : v.wf = true ∧ v.isObj = false := by
      simpa only [goodFlat, hv, Bool.and_eq_true, Bool.not_eq_true'] using h
    obtain ⟨ys, y, hys, hy1, hy2⟩ := render_last h2.1 h2.2
    have hstart : trimmedFragment c =
        .ok (trimEndMatches '}' (trimStartMatches '{'
          ('{' :: ((renderString c.key ++ ':' :: renderJson v) ++ ['}'])))) := by
      simp [trimmedFragment, serializeClaim, hv, Except.map, renderJson, renderMembers_single]
    rw [hstart, trimStartMatches_cons_same]
    have hsplit : (renderString c.key ++ ':' :: renderJson v) ++ ['}'] =
        '"' :: ((escapeStr c.key ++ ['"']) ++ ':' :: renderJson v ++ ['}']) := by
      simp [renderString]
    have h1 : trimStartMatches '{' ((renderString c.key ++ ':' :: renderJson v) ++ ['}']) =
        (renderString c.key ++ ':' :: renderJson v) ++ ['}'] := by
      rw [hsplit, trimStartMatches_cons_ne (by decide)]
    rw [h1, trimEndMatches_concat_same]
    have h3 : renderString c.key ++ ':' :: renderJson v =
        (renderString c.key ++ ':' :: ys) ++ [y] := by
      rw [hys]; simp
    rw [h3, trimEndMatches_concat_ne hy1]
    simp [memberStr, Claim.jsonValue, hv, hys]

/-! The assembly loop on good registries. -/

theorem assembleLoop_good : ∀ (entries : Registry) (acc : Str),
    (∀ e ∈ entries, goodFlat e.2 = true) →
    assembleLoop entries acc = .ok (acc ++ entriesStr entries) := by
  intro entries
  induction entries with
  | nil => intro acc _; simp [assembleLoop, entriesStr]
  | cons e tl ih =>
    intro acc h
    obtain ⟨k, c⟩ := e
    have he : goodFlat c = true := h (k, c) (by simp)
    simp only [assembleLoop, trimmedFragment_good he]
    rw [ih _ (fun e2 hme => h e2 (by simp [hme]))]
    simp [entriesStr, List.append_assoc]

theorem entriesStr_eq : ∀ (entries : Registry), entries ≠ [] →
    (∀ e ∈ entries, goodFlat e.2 = true) →
    entriesStr entries = renderMembers (entriesMembers entries) ++ [','] := by
  intro entries
  induction entries with
  | nil => intro h; exact absurd rfl h
  | cons e tl ih =>
    intro _ h
    match tl, ih with
    | [], _ =>
      simp [entriesStr, entriesMembers, renderMembers_single, memberStr]
    | e2 :: tl2, ih =>
      have hrec := ih (by simp) (fun x hx => h x (by simp [hx]))
      have h1 : entriesStr (e :: e2 :: tl2) = memberStr e.2 ++ ',' :: entriesStr (e2 :: tl2) :=
        rfl
      have h2 : entriesMembers (e :: e2 :: tl2) =
          .cons e.2.key e.2.jsonValue (entriesMembers (e2 :: tl2)) := rfl
      have h3 : entriesMembers (e2 :: tl2) =
          .cons e2.2.key e2.2.jsonValue (entriesMembers tl2) := rfl
      rw [h1, hrec, h2, h3, renderMembers_cons₂, ← h3]
      simp [memberStr, List.append_assoc]

theorem members_last : ∀ (entries : Registry), entries ≠ [] →
    (∀ e ∈ entries, goodFlat e.2 = true) →
    ∃ A y, renderMembers (entriesMembers entries) = A ++ [y] ∧ (y == ',') = false := by
  intro entries
  induction entries with
  | nil => intro h; exact absurd rfl h
  | cons e tl ih =>
    intro _ h
    match tl, ih with
    | [], _ =>
      have hg := goodFlat_spec (h e (by simp))
      obtain ⟨ys, y, hys, _, hy2⟩ := render_last hg.1 hg.2
      refine ⟨renderString e.2.key ++ ':' :: ys, y, ?_, hy2⟩
      simp only [entriesMembers, renderMembers_single, hys]
      simp
    | e2 :: tl2, ih =>
      obtain ⟨A, y, hA, hy⟩ := ih (by simp) (fun x hx => h x (by simp [hx]))
      refine ⟨renderString e.2.key ++ ':' :: renderJson e.2.jsonValue ++ ',' :: A, y, ?_, hy⟩
      simp only [entriesMembers, renderMembers_cons₂] at *
      rw [hA]
      simp [List.append_assoc]

theorem buildPayload_eq_of_loop {entries : Registry} {p : Str}
    (h : assembleLoop entries ['{'] = .ok p) :
    buildPayload entries = .ok (trimEndMatches ',' p ++ ['}']) := by
  rw [buildPayload, h]

theorem buildPayload_good : ∀ (entries : Registry),
    (∀ e ∈ entries, goodFlat e.2 = true) →
    buildPayload entries = .ok (renderJson (.obj (entriesMembers entries))) := by
  intro entries h
  match entries with
  | [] =>
    simp [buildPayload, assembleLoop, trimEndMatches, List.dropWhile, entriesMembers,
      renderJson, renderMembers]
  | e :: tl =>
    rw [buildPayload_eq_of_loop (assembleLoop_good _ ['{'] h)]
    obtain ⟨A, y, hA, hy⟩ := members_last (e :: tl) (by simp) h
    rw [entriesStr_eq (e :: tl) (by simp) h, hA]
    have htrim : trimEndMatches ',' (['{'] ++ (A ++ [y] ++ [','])) = ('{' :: A) ++ [y] := by
      rw [show (['{'] ++ (A ++ [y] ++ [',']) : Str) = (('{' :: A) ++ [y]) ++ [','] by simp,
        trimEndMatches_concat_same, trimEndMatches_concat_ne hy]
    rw [htrim]
    simp [renderJson, hA]

/-! Registry lemmas. -/

theorem insertEntry_fresh : ∀ (l : Registry) (c : Claim), c.key ∉ keysOf l →
    insertEntry l c = l ++ [(c.key, c)] := by
  intro l c
  induction l with
  | nil => intro _; rfl
  | cons e tl ih =>
    intro h
    obtain ⟨k, o⟩ := e
    simp only [keysOf, List.map_cons, List.mem_cons, not_or] at h
    have hk : ¬ k = c.key := fun he => h.1 he.symm
    rw [insertEntry, if_neg hk, ih h.2]
    simp

theorem foldl_setClaim_claims : ∀ (cs : List Claim) (b : TokenBuilder),
    (∀ c ∈ cs, c.key ∉ keysOf b.claims) → (cs.map Claim.key).Nodup →
    (cs.foldl setClaim b).claims = b.claims ++ cs.map (fun c => (c.key, c)) := by
  intro cs
  induction cs with
  | nil => intro b _ _; simp
  | cons c tl ih =>
    intro b hfresh hnd
    have hc : c.key ∉ keysOf b.claims := hfresh c (by simp)
    have hb1 : (setClaim b c).claims = b.claims ++ [(c.key, c)] := by
      simp [setClaim, insertEntry_fresh _ _ hc]
    have hfresh2 : ∀ c2 ∈ tl, c2.key ∉ keysOf (setClaim b c).claims := by
      intro c2 hc2
      rw [hb1]
      simp only [keysOf, List.map_append, List.map_cons, List.map_nil, List.mem_append,
        List.mem_singleton, not_or]
      refine ⟨hfresh c2 (by simp [hc2]), fun he => ?_⟩
      have hmem : c.key ∈ tl.map Claim.key := he ▸ List.mem_map_of_mem Claim.key hc2
      exact (List.nodup_cons.mp hnd).1 hmem
    have hnd2 := (List.nodup_cons.mp hnd).2
    rw [List.foldl_cons, ih (setClaim b c) hfresh2 hnd2, hb1]
    simp

theorem registerAll_claims {cs : List Claim} (hnd : (cs.map Claim.key).Nodup) :
    (registerAll cs).claims = cs.map (fun c => (c.key, c)) := by
  have h := foldl_setClaim_claims cs TokenBuilder.new (by simp [TokenBuilder.new, keysOf]) hnd
  simpa [registerAll, TokenBuilder.new] using h

theorem foldl_setClaim_footer : ∀ (cs : List Claim) (b : TokenBuilder),
    (cs.foldl setClaim b).footer = b.footer := by
  intro cs
  induction cs with
  | nil => intro b; rfl
  | cons c tl ih => intro b; rw [List.foldl_cons, ih]; rfl

theorem registerAll_footer (cs : List Claim) : (registerAll cs).footer = none :=
  foldl_setClaim_footer cs TokenBuilder.new

/-! Build state lemmas. -/

theorem build_claims_nil (b : TokenBuilder) (codec : TokenCodec) (key : Str) :
    (build b codec key).2.claims = [] := by
  simp only [build]
  cases h : buildPayload b.claims <;> simp [h]

theorem build_footer_eq (b : TokenBuilder) (codec : TokenCodec) (key : Str) :
    (build b codec key).2.footer = b.footer := by
  simp only [build]
  cases h : buildPayload b.claims <;> simp [h]

theorem build_ok_of_payload {b : TokenBuilder} {codec : TokenCodec} {key p : Str}
    (h : buildPayload b.claims = .ok p) :
    (build b codec key).1 = .ok (codec.encode p b.footer key) := by
  simp only [build, h]

theorem build_error_of_payload {b : TokenBuilder} {codec : TokenCodec} {key : Str} {e : Str}
    (h : buildPayload b.claims = .error e) :
    (build b codec key).1 = .error e := by
  simp only [build, h]

/-! Members of the assembled object. -/

theorem entriesMembers_toList : ∀ (l : Registry),
    (entriesMembers l).toList = l.map (fun e => (e.2.key, e.2.jsonValue)) := by
  intro l
  induction l with
  | nil => rfl
  | cons e tl ih => simp [entriesMembers, JsonMembers.toList, ih]

theorem entriesMembers_wfAll : ∀ (l : Registry), (∀ e ∈ l, goodFlat e.2 = true) →
    (entriesMembers l).wfAll = true := by
  intro l
  induction l with
  | nil => intro _; rfl
  | cons e tl ih =>
    intro h
    have hg := goodFlat_spec (h e (by simp))
    simp only [entriesMembers, JsonMembers.wfAll, Bool.and_eq_true]
    exact ⟨hg.1, ih (fun x hx => h x (by simp [hx]))⟩

/-! Failing serialization aborts the loop with the error of a failing
claim, whatever the accumulator. -/

theorem assembleLoop_error : ∀ (entries : Registry),
    (∃ e ∈ entries, ∃ msg, e.2.value = .error msg) →
    ∃ err, (∀ acc, assembleLoop entries acc = .error err) ∧
      ∃ e ∈ entries, e.2.value = .error err := by
  intro entries
  induction entries with
  | nil => rintro ⟨e, he, -⟩; simp at he
  | cons e tl ih =>
    intro hx
    obtain ⟨k, c⟩ := e
    match hv : c.value with
    | .error msg =>
      refine ⟨msg, fun acc => ?_, (k, c), by simp, hv⟩
      simp [assembleLoop, trimmedFragment, serializeClaim, hv, Except.map]
    | .ok v =>
      have htl : ∃ e2 ∈ tl, ∃ msg, e2.2.value = .error msg := by
        obtain ⟨e2, he2, msg, hmsg⟩ := hx
        rcases List.mem_cons.mp he2 with rfl | hmem
        · rw [hv] at hmsg; cases hmsg
        · exact ⟨e2, hmem, msg, hmsg⟩
      obtain ⟨err, hall, e2, hmem, hval⟩ := ih htl
      refine ⟨err, fun acc => ?_, e2, by simp [hmem], hval⟩
      simp [assembleLoop, trimmedFragment, serializeClaim, hv, Except.map, hall]

/-! Single-step unfolding facts for the JSON checker. -/

theorem numberStart_ne {c x : Char} (h : isNumberStart c = true)
    (hx : isNumberStart x = false) : (c == x) = false := by
  by_cases he : c = x
  · subst he; rw [h] at hx; cases hx
  · simp [he]

theorem sv_quote (f : Nat) (r : Str) :
    skipValue (f + 1) ('"' :: r) = skipStringRest r := by
  rw [skipValue.eq_def]; simp

theorem sv_obj_empty (f : Nat) (r : Str) :
    skipValue (f + 1) ('{' :: '}' :: r) = some r := by
  rw [skipValue.eq_def]; simp

theorem sv_obj_mem {c2 : Char} (h : (c2 == '}') = false) (f : Nat) (r2 : Str) :
    skipValue (f + 1) ('{' :: c2 :: r2) = skipMembers f (c2 :: r2) := by
  rw [skipValue.eq_def]; simp [h]

theorem sv_arr_empty (f : Nat) (r : Str) :
    skipValue (f + 1) ('[' :: ']' :: r) = some r := by
  rw [skipValue.eq_def]; simp

theorem sv_arr_mem {c2 : Char} (h : (c2 == ']') = false) (f : Nat) (r2 : Str) :
    skipValue (f + 1) ('[' :: c2 :: r2) = skipElements f (c2 :: r2) := by
  rw [skipValue.eq_def]; simp [h]

theorem sv_true (f : Nat) (r : Str) :
    skipValue (f + 1) ('t' :: r) = expectChars ['r', 'u', 'e'] r := by
  rw [skipValue.eq_def]; simp

theorem sv_false (f : Nat) (r : Str) :
    skipValue (f + 1) ('f' :: r) = expectChars ['a', 'l', 's', 'e'] r := by
  rw [skipValue.eq_def]; simp

theorem sv_null (f : Nat) (r : Str) :
    skipValue (f + 1) ('n' :: r) = expectChars ['u', 'l', 'l'] r := by
  rw [skipValue.eq_def]; simp

theorem sv_num {c : Char} (h : isNumberStart c = true) (f : Nat) (r : Str) :
    skipValue (f + 1) (c :: r) =
      if validNumberString ((c :: r).takeWhile isNumberChar) then
        some ((c :: r).dropWhile isNumberChar)
      else none := by
  rw [skipValue.eq_def]
  have hne : ∀ x : Char, isNumberStart x = false → ¬ c = x := by
    intro x hx he; subst he; rw [h] at hx; cases hx
  simp [hne '"' (by decide), hne '{' (by decide), hne '[' (by decide),
    hne 't' (by decide), hne 'f' (by decide), hne 'n' (by decide), h]

theorem sm_unfold (f : Nat) (r : Str) :
    skipMembers (f + 1) ('"' :: r) =
      match skipStringRest r with
      | none => none
      | some r2 =>
        match r2 with
        | [] => none
        | c2 :: r3 =>
          if c2 == ':' then
            match skipValue f r3 with
            | none => none
            | some r4 =>
              match r4 with
              | [] => none
              | c3 :: r5 =>
                if c3 == ',' then skipMembers f r5
                else if c3 == '}' then some r5
                else none
          else none := by
  rw [skipMembers.eq_def]; simp

theorem se_unfold (f : Nat) (s : Str) :
    skipElements (f + 1) s =
      match skipValue f s with
      | none => none
      | some r =>
        match r with
        | [] => none
        | c :: r2 =>
          if c == ',' then skipElements f r2
          else if c == ']' then some r2
          else none := by
  rw [skipElements.eq_def]

/-! The checker accepts every rendered well-formed JSON value. -/

theorem takeWhile_dropWhile_split (p : Char → Bool) : ∀ (xs ys : Str),
    (∀ x ∈ xs, p x = true) → (∀ y ys2, ys = y :: ys2 → p y = false) →
    (xs ++ ys).takeWhile p = xs ∧ (xs ++ ys).dropWhile p = ys := by
  intro xs
  induction xs with
  | nil =>
    intro ys _ hhd
    match ys with
    | [] => simp
    | y :: ys2 => simp [List.takeWhile_cons, List.dropWhile_cons, hhd y ys2 rfl]
  | cons x xs ih =>
    intro ys hall hhd
    have hx := hall x (by simp)
    have hrec := ih ys (fun a ha => hall a (by simp [ha])) hhd
    simp [List.takeWhile_cons, List.dropWhile_cons, hx, hrec.1, hrec.2]

theorem noNumHead_spec {rest : Str} (h : noNumHead rest = true) :
    ∀ y ys2, rest = y :: ys2 → isNumberChar y = false := by
  intro y ys2 he
  subst he
  simpa [noNumHead] using h

theorem renderString_length (k : Str) :
    (renderString k).length = (escapeStr k).length + 2 := by
  simp [renderString]

theorem checkerSound : ∀ (f : Nat),
    (∀ (v : Json) (rest : Str), v.wf = true → (renderJson v).length ≤ f →
      noNumHead rest = true → skipValue (f + 1) (renderJson v ++ rest) = some rest)
    ∧ (∀ (m : JsonMembers) (rest : Str), m ≠ .nil → m.wfAll = true →
      (renderMembers m).length + 1 ≤ f →
      skipMembers (f + 1) (renderMembers m ++ '}' :: rest) = some rest)
    ∧ (∀ (l : JsonList) (rest : Str), l ≠ .nil → l.wfAll = true →
      (renderElements l).length + 1 ≤ f →
      skipElements (f + 1) (renderElements l ++ ']' :: rest) = some rest) := by
  intro f
  induction f with
  | zero =>
    refine ⟨?_, ?_, ?_⟩
    · intro v rest hwf hlen _
      have hne := render_ne_nil hwf
      have h0 : renderJson v = [] := List.length_eq_zero.mp (Nat.le_zero.mp hlen)
      exact absurd h0 hne
    · intro m rest _ _ hlen; omega
    · intro l rest _ _ hlen; omega
  | succ g ih =>
    obtain ⟨ihv, ihm, ihe⟩ := ih
    refine ⟨?_, ?_, ?_⟩
    · intro v rest hwf hlen hnh
      cases v with
      | null =>
        have hr : renderJson Json.null = ['n', 'u', 'l', 'l'] := by
          simp [renderJson, litNull]
        rw [hr]
        simp only [List.cons_append, List.nil_append]
        rw [sv_null]
        simp [expectChars]
      | bool b =>
        cases b with
        | true =>
          have hr : renderJson (Json.bool true) = ['t', 'r', 'u', 'e'] := by
            simp [renderJson, litTrue]
          rw [hr]
          simp only [List.cons_append, List.nil_append]
          rw [sv_true]
          simp [expectChars]
        | false =>
          have hr : renderJson (Json.bool false) = ['f', 'a', 'l', 's', 'e'] := by
            simp [renderJson, litFalse]
          rw [hr]
          simp only [List.cons_append, List.nil_append]
          rw [sv_false]
          simp [expectChars]
      | num s =>
        have hwf2 : s.all isNumberChar = true ∧ validNumberString s = true := by
          simpa [Json.wf, numberWF] using hwf
        obtain ⟨c, r0, hs, hns⟩ := validNumberString_head hwf2.2
        have hr : renderJson (Json.num s) = s := by simp [renderJson]
        rw [hr, hs]
        have hsplit := takeWhile_dropWhile_split isNumberChar (c :: r0) rest
          (fun x hx => List.all_eq_true.mp (hs ▸ hwf2.1) x hx) (noNumHead_spec hnh)
        have hv2 : validNumberString (c :: r0) = true := hs ▸ hwf2.2
        simp only [List.cons_append] at hsplit ⊢
        rw [sv_num hns, hsplit.1, hsplit.2]
        simp [hv2]
      | str s =>
        have hr : renderJson (Json.str s) = '"' :: (escapeStr s ++ ['"']) := by
          simp [renderJson, renderString]
        rw [hr]
        simp only [List.cons_append]
        rw [sv_quote]
        rw [show (escapeStr s ++ ['"']) ++ rest = escapeStr s ++ '"' :: rest from by simp]
        exact skipStringRest_escape s rest
      | arr l =>
        cases l with
        | nil =>
          have hr : renderJson (Json.arr .nil) = ['[', ']'] := by
            simp [renderJson, renderElements]
          rw [hr]
          simp only [List.cons_append, List.nil_append]
          rw [sv_arr_empty]
        | cons v2 tl2 =>
          have hwf2 : v2.wf = true ∧ tl2.wfAll = true := by
            simpa [Json.wf, JsonList.wfAll] using hwf
          obtain ⟨c0, cs0, hc0, hc0b, -⟩ := render_head hwf2.1
          have hr : renderJson (Json.arr (.cons v2 tl2)) =
              '[' :: (renderElements (.cons v2 tl2) ++ [']']) := by simp [renderJson]
          have hre : ∃ t, renderElements (.cons v2 tl2) = c0 :: t := by
            cases tl2 with
            | nil => exact ⟨cs0, by rw [renderElements_single, hc0]⟩
            | cons v3 tl3 =>
              refine ⟨cs0 ++ ',' :: renderElements (.cons v3 tl3), ?_⟩
              rw [renderElements_cons₂, hc0]
              simp
          obtain ⟨t, ht⟩ := hre
          have hin : ('[' :: (renderElements (.cons v2 tl2) ++ [']'])) ++ rest =
              '[' :: c0 :: (t ++ (']' :: rest)) := by
            rw [ht]; simp
          rw [hr, hin, sv_arr_mem hc0b]
          rw [show c0 :: (t ++ (']' :: rest)) =
            renderElements (.cons v2 tl2) ++ ']' :: rest from by rw [ht]; simp]
          apply ihe (.cons v2 tl2) rest (by intro hh; cases hh)
            (by simp only [JsonList.wfAll, Bool.and_eq_true]; exact hwf2)
          rw [hr] at hlen
          simp [List.length_append] at hlen
          omega
      | obj m =>
        cases m with
        | nil =>
          have hr : renderJson (Json.obj .nil) = ['{', '}'] := by
            simp [renderJson, renderMembers]
          rw [hr]
          simp only [List.cons_append, List.nil_append]
          rw [sv_obj_empty]
        | cons k1 vv tl =>
          have hr : renderJson (Json.obj (.cons k1 vv tl)) =
              '{' :: (renderMembers (.cons k1 vv tl) ++ ['}']) := by simp [renderJson]
          have hm : ∃ t, renderMembers (.cons k1 vv tl) = '"' :: t := by
            cases tl with
            | nil =>
              refine ⟨(escapeStr k1 ++ ['"']) ++ ':' :: renderJson vv, ?_⟩
              rw [renderMembers_single]
              simp [renderString]
            | cons k2 v2 tl2 =>
              refine ⟨(escapeStr k1 ++ ['"']) ++ ':' :: renderJson vv ++
                ',' :: renderMembers (.cons k2 v2 tl2), ?_⟩
              rw [renderMembers_cons₂]
              simp [renderString]
          obtain ⟨t, ht⟩ := hm
          have hin : ('{' :: (renderMembers (.cons k1 vv tl) ++ ['}'])) ++ rest =
              '{' :: '"' :: (t ++ ('}' :: rest)) := by
            rw [ht]; simp
          rw [hr, hin, sv_obj_mem (by decide)]
          rw [show ('"' : Char) :: (t ++ ('}' :: rest)) =
            renderMembers (.cons k1 vv tl) ++ '}' :: rest from by rw [ht]; simp]
          apply ihm (.cons k1 vv tl) rest (by intro hh; cases hh)
            (by simpa [Json.wf] using hwf)
          rw [hr] at hlen
          simp [List.length_append] at hlen
          omega
    · intro m rest hne hwfm hlen
      cases m with
      | nil => exact absurd rfl hne
      | cons k v tl =>
        have hwf2 : v.wf = true ∧ tl.wfAll = true := by
          simpa [JsonMembers.wfAll] using hwfm
        cases tl with
        | nil =>
          rw [renderMembers_single] at hlen ⊢
          have hin : (renderString k ++ ':' :: renderJson v) ++ '}' :: rest =
              '"' :: (escapeStr k ++ '"' :: ':' :: (renderJson v ++ '}' :: rest)) := by
            simp [renderString]
          rw [hin, sm_unfold, skipStringRest_escape]
          have hrsl := renderString_length k
          have hlv : (renderJson v).length ≤ g := by
            simp [List.length_append] at hlen
            omega
          have hsv := ihv v ('}' :: rest) hwf2.1 hlv rfl
          simp [hsv]
        | cons k2 v2 tl2 =>
          rw [renderMembers_cons₂] at hlen ⊢
          have hin : (renderString k ++ ':' :: renderJson v ++
                ',' :: renderMembers (.cons k2 v2 tl2)) ++ '}' :: rest =
              '"' :: (escapeStr k ++ '"' :: ':' :: (renderJson v ++
                ',' :: (renderMembers (.cons k2 v2 tl2) ++ '}' :: rest))) := by
            simp [renderString]
          rw [hin, sm_unfold, skipStringRest_escape]
          have hrsl := renderString_length k
          have hlv : (renderJson v).length ≤ g ∧
              (renderMembers (.cons k2 v2 tl2)).length + 1 ≤ g := by
            simp [List.length_append] at hlen
            omega
          have hsv := ihv v (',' :: (renderMembers (.cons k2 v2 tl2) ++ '}' :: rest))
            hwf2.1 hlv.1 rfl
          have hsm := ihm (.cons k2 v2 tl2) rest (by intro hh; cases hh) hwf2.2 hlv.2
          simp [hsv, hsm]
    · intro l rest hne hwfl hlen
      cases l with
      | nil => exact absurd rfl hne
      | cons v tl =>
        have hwf2 : v.wf = true ∧ tl.wfAll = true := by
          simpa [JsonList.wfAll] using hwfl
        cases tl with
        | nil =>
          rw [renderElements_single] at hlen ⊢
          rw [se_unfold]
          have hsv := ihv v (']' :: rest) hwf2.1 (by omega) rfl
          simp [hsv]
        | cons v2 tl2 =>
          rw [renderElements_cons₂] at hlen ⊢
          have hvpos : 1 ≤ (renderJson v).length := by
            obtain ⟨c, cs, hc, -, -⟩ := render_head hwf2.1
            simp [hc]
          have hl2 : (renderJson v).length ≤ g ∧
              (renderElements (.cons v2 tl2)).length + 1 ≤ g := by
            simp [List.length_append] at hlen
            omega
          rw [se_unfold]
          rw [show (renderJson v ++ ',' :: renderElements (.cons v2 tl2)) ++ ']' :: rest =
            renderJson v ++ ',' :: (renderElements (.cons v2 tl2) ++ ']' :: rest) from by simp]
          have hsv := ihv v (',' :: (renderElements (.cons v2 tl2) ++ ']' :: rest))
            hwf2.1 hl2.1 rfl
          have hse := ihe (.cons v2 tl2) rest (by intro hh; cases hh) hwf2.2 hl2.2
          simp [hsv, hse]

theorem isValidJson_render {v : Json} (hwf : v.wf = true) :
    isValidJson (renderJson v) = true := by
  have h := (checkerSound (renderJson v).length).1 v [] hwf (Nat.le_refl _) rfl
  rw [List.append_nil] at h
  rw [isValidJson, h]

/-! Claim theorems. -/

/-- C5: building with zero registered claims produces a payload exactly
equal to the two-character string of an opening and a closing brace, even
though the assembly loop runs over zero fragments; the builder hands
exactly that payload to the codec. -/
theorem c5_empty_payload :
    buildPayload [] = .ok ['{', '}'] ∧
    ∀ (codec : TokenCodec) (key : Str),
      (build TokenBuilder.new codec key).1 = .ok (codec.encode ['{', '}'] none key) := by
  refine ⟨rfl, fun codec key => ?_⟩
  exact build_ok_of_payload rfl

/-- C6: build consumes the claim registry: after any build call the
registry of the builder is empty, so a second build without intervening
set_claim calls finds no residual claims and assembles the empty payload. -/
theorem c6_build_drains (b : TokenBuilder) (codec : TokenCodec) (key : Str) :
    (build b codec key).2.claims = [] ∧
    buildPayload (build b codec key).2.claims = .ok ['{', '}'] := by
  refine ⟨build_claims_nil b codec key, ?_⟩
  rw [build_claims_nil b codec key]
  rfl

/-- C9: build leaves the footer field of the builder unchanged, whether the
payload assembly succeeds or fails, so a reused builder carries the
previous footer into subsequent builds. -/
theorem c9_footer_frame (b : TokenBuilder) (codec : TokenCodec) (key : Str) :
    (build b codec key).2.footer = b.footer :=
  build_footer_eq b codec key

/-- C10: when build returns a claim-serialization error, the registry was
taken out of the builder before any claim was serialized, so on return the
registry is already empty. -/
theorem c10_registry_drained_on_error (b : TokenBuilder) (codec : TokenCodec)
    (key : Str) (e : Str) (h : (build b codec key).1 = .error e) :
    (build b codec key).2.claims = [] :=
  build_claims_nil b codec key

/-- C10 witness: a concrete failing build whose registry is empty on
return. -/
theorem c10_witness :
    (build ⟨[(['x'], claimFailing)], none⟩ idCodec []).1 = .error ['m'] ∧
    (build ⟨[(['x'], claimFailing)], none⟩ idCodec []).2.claims = [] :=
  ⟨rfl, c10_registry_drained_on_error ⟨[(['x'], claimFailing)], none⟩ idCodec [] ['m'] rfl⟩

/-! Lemmas for set_claim override behavior. -/

theorem lookupClaim_insertEntry : ∀ (l : Registry) (c : Claim),
    lookupClaim (insertEntry l c) c.key = some c := by
  intro l c
  induction l with
  | nil => simp [insertEntry, lookupClaim]
  | cons e tl ih =>
    obtain ⟨k, o⟩ := e
    by_cases hk : k = c.key
    · simp [insertEntry, lookupClaim, hk]
    · simp [insertEntry, lookupClaim, hk, ih]

theorem insertEntry_override : ∀ (l : Registry) (c c2 : Claim), c2.key = c.key →
    insertEntry (insertEntry l c) c2 = insertEntry l c2 := by
  intro l c c2 h
  induction l with
  | nil => simp [insertEntry, h]
  | cons e tl ih =>
    obtain ⟨k, o⟩ := e
    by_cases hk : k = c.key
    · have hk2 : k = c2.key := by rw [hk, h]
      have hc : c.key = c2.key := h.symm
      simp [insertEntry, hk, hk2, hc]
    · have hk2 : ¬ k = c2.key := by rw [h]; exact hk
      simp [insertEntry, hk, hk2, ih]

/-- C4: set_claim is a total function that registers the claim under its
own key, and setting a second claim under the same key produces the same
builder as setting only the second claim, so the earlier value is not
observable by build or decode (last-write-wins, no error on collision). -/
theorem c4_last_write_wins (b : TokenBuilder) (c c2 : Claim) (h : c2.key = c.key) :
    lookupClaim (setClaim b c).claims c.key = some c ∧
    setClaim (setClaim b c) c2 = setClaim b c2 := by
  constructor
  · simp only [setClaim]
    exact lookupClaim_insertEntry b.claims c
  · simp only [setClaim]
    rw [insertEntry_override b.claims c c2 h]

/-- C4 witness: overriding a concrete claim key keeps only the later
value. -/
theorem c4_witness :
    lookupClaim (setClaim TokenBuilder.new claimK1).claims ['k'] = some claimK1 ∧
    setClaim (setClaim TokenBuilder.new claimK1) claimK2 = setClaim TokenBuilder.new claimK2 :=
  c4_last_write_wins TokenBuilder.new claimK1 claimK2 rfl

/-- C7: when some registered claim fails to serialize, build returns the
serialization error of a failing claim, and the result is the same for
every codec and key: the external codec is never consulted, the error is
simply returned to the caller. -/
theorem c7_serialization_error (b : TokenBuilder)
    (h : ∃ e ∈ b.claims, ∃ msg, e.2.value = .error msg) :
    ∃ err, (∃ e ∈ b.claims, e.2.value = .error err) ∧
      ∀ (codec : TokenCodec) (key : Str), (build b codec key).1 = .error err := by
  obtain ⟨err, hall, hmem⟩ := assembleLoop_error b.claims h
  refine ⟨err, hmem, fun codec key => ?_⟩
  apply build_error_of_payload
  rw [buildPayload, hall ['{']]

/-- C7 witness: a concrete builder holding a failing claim yields that
claim's error for every codec and key. -/
theorem c7_witness :
    ∃ err, (∃ e ∈ (⟨[(['x'], claimFailing)], none⟩ : TokenBuilder).claims,
        e.2.value = .error err) ∧
      ∀ (codec : TokenCodec) (key : Str),
        (build ⟨[(['x'], claimFailing)], none⟩ codec key).1 = .error err :=
  c7_serialization_error ⟨[(['x'], claimFailing)], none⟩
    ⟨(['x'], claimFailing), by simp, ['m'], rfl⟩

/-- C3 counterexample: for a registered claim whose value is a nested JSON
object, the value part of the fragment build places into the payload is not
bit-for-bit the output of the claim serializer: the closing brace of the
nested object is stripped by trim_end_matches. -/
theorem c3_counterexample :
    trimmedFragment claimNested =
      .ok (renderString ['a'] ++ ':' :: ['{', '"', 'b', '"', ':', '1']) ∧
    ['{', '"', 'b', '"', ':', '1'] ≠
      renderJson (.obj (.cons ['b'] (.num ['1']) .nil)) := by
  exact ⟨rfl, by decide⟩

/-- C3 amended: for every registered claim whose value serializes
successfully to a well-formed value that is not itself a JSON object
(nested arrays included), the fragment build places into the payload is the
rendered key, a colon, and bit-for-bit the serializer output of the value. -/
theorem c3_amended (c : Claim) (v : Json) (hv : c.value = .ok v) (hwf : v.wf = true)
    (hobj : v.isObj = false) :
    trimmedFragment c = .ok (renderString c.key ++ ':' :: renderJson v) := by
  have hg : goodFlat c = true := by simp [goodFlat, hv, hwf, hobj]
  rw [trimmedFragment_good hg, memberStr]
  simp [Claim.jsonValue, hv]

/-- C3 witness: an array value holding a nested object is preserved
bit-for-bit. -/
theorem c3_amended_witness :
    trimmedFragment claimArr =
      .ok (renderString ['k'] ++ ':' ::
        renderJson (.arr (.cons (.obj (.cons ['x'] (.num ['7']) .nil)) .nil))) :=
  c3_amended claimArr (.arr (.cons (.obj (.cons ['x'] (.num ['7']) .nil)) .nil))
    rfl (by decide) rfl

/-- C2 counterexample: a claim whose value is a nested object serializes to
a well-formed standalone single-key JSON object, yet the payload assembled
by build from that single claim is not syntactically valid JSON. -/
theorem c2_counterexample :
    serializeClaim claimNested =
      .ok ['{', '"', 'a', '"', ':', '{', '"', 'b', '"', ':', '1', '}', '}'] ∧
    isValidJson ['{', '"', 'a', '"', ':', '{', '"', 'b', '"', ':', '1', '}', '}'] = true ∧
    buildPayload [(['a'], claimNested)] =
      .ok ['{', '"', 'a', '"', ':', '{', '"', 'b', '"', ':', '1', '}'] ∧
    isValidJson ['{', '"', 'a', '"', ':', '{', '"', 'b', '"', ':', '1', '}'] = false := by
  exact ⟨rfl, rfl, rfl, rfl⟩

/-- C2 amended: when every registered claim serializes successfully to a
well-formed value that is not itself a JSON object, the assembled payload
is syntactically valid JSON, namely the rendering of one JSON object; with
zero claims it is the empty object. -/
theorem c2_amended (entries : Registry) (h : ∀ e ∈ entries, goodFlat e.2 = true) :
    buildPayload entries = .ok (renderJson (.obj (entriesMembers entries))) ∧
    isValidJson (renderJson (.obj (entriesMembers entries))) = true := by
  refine ⟨buildPayload_good entries h, isValidJson_render ?_⟩
  show (Json.obj (entriesMembers entries)).wf = true
  simp only [Json.wf]
  exact entriesMembers_wfAll entries h

/-- C2 witness: a concrete one-claim registry assembles a valid payload. -/
theorem c2_amended_witness :
    buildPayload [(['a'], claimA)] =
      .ok (renderJson (.obj (entriesMembers [(['a'], claimA)]))) ∧
    isValidJson (renderJson (.obj (entriesMembers [(['a'], claimA)]))) = true :=
  c2_amended [(['a'], claimA)] (by decide)

/-- C8 counterexample: two builders holding identical claim sets (the same
two claims, in the two iteration orders an unordered registry may expose)
assemble different payload strings, so the assembled string is not a
function of the claim set alone. -/
theorem c8_counterexample :
    List.Perm [(['a'], claimA), (['b'], claimB)] [(['b'], claimB), (['a'], claimA)] ∧
    buildPayload [(['a'], claimA), (['b'], claimB)] =
      .ok ['{', '"', 'a', '"', ':', '1', ',', '"', 'b', '"', ':', '2', '}'] ∧
    buildPayload [(['b'], claimB), (['a'], claimA)] =
      .ok ['{', '"', 'b', '"', ':', '2', ',', '"', 'a', '"', ':', '1', '}'] ∧
    (['{', '"', 'a', '"', ':', '1', ',', '"', 'b', '"', ':', '2', '}'] : Str) ≠
      ['{', '"', 'b', '"', ':', '2', ',', '"', 'a', '"', ':', '1', '}'] :=
  ⟨List.Perm.swap (['b'], claimB) (['a'], claimA) [], rfl, rfl, by decide⟩

/-- C8 amended: payload assembly is a deterministic function of the
registry list (same list, same string); for two registries holding the same
claims as unordered sets, with successfully serializing non-object values,
the two payloads are renderings of JSON objects with the same members up to
order. -/
theorem c8_amended (l1 l2 : Registry) (hperm : l1.Perm l2)
    (h : ∀ e ∈ l1, goodFlat e.2 = true) :
    buildPayload l1 = .ok (renderJson (.obj (entriesMembers l1))) ∧
    buildPayload l2 = .ok (renderJson (.obj (entriesMembers l2))) ∧
    (entriesMembers l1).toList.Perm (entriesMembers l2).toList := by
  have h2 : ∀ e ∈ l2, goodFlat e.2 = true := fun e he => h e (hperm.mem_iff.mpr he)
  refine ⟨buildPayload_good l1 h, buildPayload_good l2 h2, ?_⟩
  rw [entriesMembers_toList, entriesMembers_toList]
  exact hperm.map _

/-- C8 witness: the two concrete orders of the same two claims decode to
objects with permuted members. -/
theorem c8_amended_witness :
    buildPayload [(['a'], claimA), (['b'], claimB)] =
      .ok (renderJson (.obj (entriesMembers [(['a'], claimA), (['b'], claimB)]))) ∧
    buildPayload [(['b'], claimB), (['a'], claimA)] =
      .ok (renderJson (.obj (entriesMembers [(['b'], claimB), (['a'], claimA)]))) ∧
    (entriesMembers [(['a'], claimA), (['b'], claimB)]).toList.Perm
      (entriesMembers [(['b'], claimB), (['a'], claimA)]).toList :=
  c8_amended [(['a'], claimA), (['b'], claimB)] [(['b'], claimB), (['a'], claimA)]
    (List.Perm.swap (['b'], claimB) (['a'], claimA) []) (by decide)

/-- C1 counterexample: register a single claim whose value is a nested
object; build succeeds and decoding the produced token returns the payload
unchanged, but that payload is not the rendering of a JSON object whose
pairs equal the registered claim set. -/
theorem c1_counterexample :
    (build (registerAll [claimNested]) idCodec []).1 =
      .ok ['{', '"', 'a', '"', ':', '{', '"', 'b', '"', ':', '1', '}'] ∧
    idCodec.decode ['{', '"', 'a', '"', ':', '{', '"', 'b', '"', ':', '1', '}'] none [] =
      .ok ['{', '"', 'a', '"', ':', '{', '"', 'b', '"', ':', '1', '}'] ∧
    ¬ ∃ mems : JsonMembers,
        (['{', '"', 'a', '"', ':', '{', '"', 'b', '"', ':', '1', '}'] : Str) =
          renderJson (.obj mems) ∧
        mems.toList.Perm [(['a'], Json.obj (.cons ['b'] (.num ['1']) .nil))] := by
  refine ⟨rfl, rfl, ?_⟩
  rintro ⟨mems, hp, hperm⟩
  rw [List.perm_singleton] at hperm
  cases mems with
  | nil => simp [JsonMembers.toList] at hperm
  | cons k v tl =>
    rw [JsonMembers.toList] at hperm
    injection hperm with h1 h2
    have hk : k = ['a'] := congrArg Prod.fst h1
    have hv : v = Json.obj (.cons ['b'] (.num ['1']) .nil) := congrArg Prod.snd h1
    cases tl with
    | cons k2 v2 tl2 => simp [JsonMembers.toList] at h2
    | nil =>
      subst hk
      subst hv
      exact absurd hp (by decide)

/-- C1 amended: for every finite list of claims with pairwise distinct keys
whose values serialize successfully to well-formed values that are not
themselves JSON objects, decoding the token produced by build yields the
rendering of a JSON object whose key and value pairs are exactly the
registered claim set, and the decoded pair set is the same for every
insertion order. -/
theorem c1_amended (codec : TokenCodec) (key : Str) (cs cs2 : List Claim)
    (hperm : cs2.Perm cs) (hnd : (cs.map Claim.key).Nodup)
    (hgood : ∀ c ∈ cs, goodFlat c = true) :
    ∃ t t2 p p2 m m2,
      (build (registerAll cs) codec key).1 = .ok t ∧
      codec.decode t none key = .ok p ∧
      p = renderJson (.obj m) ∧
      (JsonMembers.toList m).Perm (cs.map (fun c => (c.key, c.jsonValue))) ∧
      (build (registerAll cs2) codec key).1 = .ok t2 ∧
      codec.decode t2 none key = .ok p2 ∧
      p2 = renderJson (.obj m2) ∧
      (JsonMembers.toList m2).Perm (cs.map (fun c => (c.key, c.jsonValue))) := by
  have hreg : (registerAll cs).claims = cs.map (fun c => (c.key, c)) :=
    registerAll_claims hnd
  have hgood1 : ∀ e ∈ (registerAll cs).claims, goodFlat e.2 = true := by
    rw [hreg]
    intro e he
    obtain ⟨c, hc, rfl⟩ := List.mem_map.mp he
    exact hgood c hc
  have hp1 : buildPayload (registerAll cs).claims =
      .ok (renderJson (.obj (entriesMembers (registerAll cs).claims))) :=
    buildPayload_good _ hgood1
  have hnd2 : (cs2.map Claim.key).Nodup := ((hperm.map Claim.key).nodup_iff).mpr hnd
  have hgood2 : ∀ c ∈ cs2, goodFlat c = true := fun c hc => hgood c (hperm.mem_iff.mp hc)
  have hreg2 : (registerAll cs2).claims = cs2.map (fun c => (c.key, c)) :=
    registerAll_claims hnd2
  have hgood2e : ∀ e ∈ (registerAll cs2).claims, goodFlat e.2 = true := by
    rw [hreg2]
    intro e he
    obtain ⟨c, hc, rfl⟩ := List.mem_map.mp he
    exact hgood2 c hc
  have hp2 : buildPayload (registerAll cs2).claims =
      .ok (renderJson (.obj (entriesMembers (registerAll cs2).claims))) :=
    buildPayload_good _ hgood2e
  have hb1 : (build (registerAll cs) codec key).1 =
      .ok (codec.encode (renderJson (.obj (entriesMembers (registerAll cs).claims)))
        none key) := by
    have hb := @build_ok_of_payload (registerAll cs) codec key _ hp1
    rw [registerAll_footer] at hb
    exact hb
  have hb2 : (build (registerAll cs2) codec key).1 =
      .ok (codec.encode (renderJson (.obj (entriesMembers (registerAll cs2).claims)))
        none key) := by
    have hb := @build_ok_of_payload (registerAll cs2) codec key _ hp2
    rw [registerAll_footer] at hb
    exact hb
  refine ⟨_, _, _, _, entriesMembers (registerAll cs).claims,
    entriesMembers (registerAll cs2).claims,
    hb1, codec.decode_encode _ _ _, rfl, ?_, hb2, codec.decode_encode _ _ _, rfl, ?_⟩
  · rw [entriesMembers_toList, hreg, List.map_map]
    exact List.Perm.refl _
  · rw [entriesMembers_toList, hreg2, List.map_map]
    exact hperm.map _

/-- C1 witness: two concrete insertion orders of the same two claims decode
to the same pair set. -/
theorem c1_amended_witness :
    ∃ t t2 p p2 m m2,
      (build (registerAll [claimA, claimB]) idCodec []).1 = .ok t ∧
      idCodec.decode t none [] = .ok p ∧
      p = renderJson (.obj m) ∧
      (JsonMembers.toList m).Perm
        ([claimA, claimB].map (fun c => (c.key, c.jsonValue))) ∧
      (build (registerAll [claimB, claimA]) idCodec []).1 = .ok t2 ∧
      idCodec.decode t2 none [] = .ok p2 ∧
      p2 = renderJson (.obj m2) ∧
      (JsonMembers.toList m2).Perm
        ([claimA, claimB].map (fun c => (c.key, c.jsonValue))) :=
  c1_amended idCodec [] [claimA, claimB] [claimB, claimA]
    (List.Perm.swap claimA claimB []) (by decide) (by decide)
